import Mathlib

/-!
Verification of the persistent copy-on-write trie in `src/primer/trie.cpp`.

The embedding models:
- type-erased values (`TrieNodeWithValue<T>`'s payload) as a pair `TVal` of a
  type tag and a payload, so that `dynamic_cast` to a requested type succeeds
  exactly when the tags agree;
- a trie node as children association list (modelling
  `std::map<char, std::shared_ptr<const TrieNode>>`, whose mapped pointers may
  be null) together with an optional value (`some` exactly for
  `TrieNodeWithValue`, i.e. `is_value_node_`);
- a trie version (`Trie`) as an optional root node (`root_` may be null).

`Trie.Get`, `Trie.Put` and `Trie.Remove` below are loop-by-loop translations
of the three member functions in `trie.cpp`.
-/

/-- A type-erased stored value: `ty` is the (erased) static type of the value,
`val` its payload. Modelled from the spec: `TrieNodeWithValue<T>` (declared in
the header `trie.h`, which is not part of the sources) stores one value whose
static type is fixed when stored and recovered by checked downcast on reads. -/
structure TVal where
  ty : Nat
  val : Nat
deriving DecidableEq, Repr

/-- A trie node. Modelled from the spec and the uses in `trie.cpp`: `TrieNode`
(declared in the missing header `trie.h`) holds `children_`, a map from `char`
to a shared pointer to a child (the pointer stored under a character may be
null), and is a value node iff it additionally carries a stored value
(`TrieNodeWithValue`); `Clone` produces a shallow copy preserving both. -/
inductive TrieNode : Type where
  | mk : List (Char × Option TrieNode) → Option TVal → TrieNode

/-- The `children_` field of a node. -/
def TrieNode.children : TrieNode → List (Char × Option TrieNode)
  | .mk cs _ => cs

/-- The stored value of a node: `some` exactly when the node is a
`TrieNodeWithValue` (`is_value_node_`). -/
def TrieNode.value : TrieNode → Option TVal
  | .mk _ v => v

/-- A trie version: the `root_` pointer, possibly null. -/
abbrev Trie := Option TrieNode

/-- `children_.find(c)`: `some p` when the map has an entry for `c` (the entry
itself being a possibly-null pointer `p`), `none` when `find` returns `end()`. -/
def lookupChild : List (Char × Option TrieNode) → Char → Option (Option TrieNode)
  | [], _ => none
  | p :: rest, c => if p.1 = c then some p.2 else lookupChild rest c

/-- `children_[c] = child`: insert-or-assign into the map. -/
def mapInsert (c : Char) (child : Option TrieNode) :
    List (Char × Option TrieNode) → List (Char × Option TrieNode)
  | [] => [(c, child)]
  | p :: rest => if p.1 = c then (c, child) :: rest else p :: mapInsert c child rest

/-- `cur->children_.find(ch) == cur->children_.end() ? nullptr : cur->children_.at(ch)`:
the step taken by every walk loop in `trie.cpp`. -/
def childOf (n : TrieNode) (c : Char) : Option TrieNode :=
  match lookupChild n.children c with
  | none => none
  | some child => child

/-- Clone a node and overwrite one child entry:
`cur = node->Clone(); cur->children_[c] = child;`. -/
def setChild (n : TrieNode) (c : Char) (child : Option TrieNode) : TrieNode :=
  TrieNode.mk (mapInsert c child n.children) n.value

/-- The traversal loop of `Trie::Get` (lines 14-20 of `trie.cpp`): walk the key
one character at a time, returning the landing node (null when the walk falls
off the trie). -/
def getNode : Trie → List Char → Trie
  | node, [] => node
  | none, _ :: _ => none
  | some n, c :: rest =>
    match lookupChild n.children c with
    | none => none
    | some child => getNode child rest

/-- `Trie::Get<T>`: walk the key, require a value node, and downcast the stored
value to the requested type tag `ty`; any failure yields `none` (nullptr). -/
def Trie.Get (t : Trie) (key : List Char) (ty : Nat) : Option Nat :=
  match getNode t key with
  | none => none
  | some n =>
    match n.value with
    | none => none
    | some v => if v.ty = ty then some v.val else none

/-- The shared "store old path" loop of `Trie::Put` and `Trie::Remove`
(lines 49-54 and 95-100): returns the stack of visited nodes, each paired with
the key character consumed while standing on it, and the final `cur`.
The stack length equals the final value of `idx`. -/
def walkAux : Trie → List Char → List (TrieNode × Char) × Trie
  | cur, [] => ([], cur)
  | none, _ :: _ => ([], none)
  | some n, c :: rest =>
    let r := walkAux (childOf n c) rest
    ((n, c) :: r.1, r.2)

/-- Step 2.2 of `Trie::Put` (lines 64-71): wrap the leaf in fresh single-child
plain nodes, one per unmatched key character, built bottom-up. -/
def buildChain : List Char → TrieNode → TrieNode
  | [], leaf => leaf
  | c :: rest, leaf => TrieNode.mk [(c, some (buildChain rest leaf))] none

/-- Step 3 of `Trie::Put` and `Trie::Remove` (lines 74-79 and 109-115): walk
the recorded path from deepest to root, cloning each node and overwriting its
entry for the consumed character with the node built one level below. -/
def rebuildPath : List (TrieNode × Char) → Trie → Trie
  | [], child => child
  | (n, c) :: rest, child => some (setChild n c (rebuildPath rest child))

/-- `Trie::Put`: record the old path, build the terminal value node (copying
the children of the node already at that position, if any), chain plain nodes
for the unmatched key suffix, and rebuild the matched prefix by path copying. -/
def Trie.Put (t : Trie) (key : List Char) (v : TVal) : Trie :=
  let w := walkAux t key
  let leaf : TrieNode :=
    match w.2 with
    | some n => TrieNode.mk n.children (some v)
    | none => TrieNode.mk [] (some v)
  rebuildPath w.1 (some (buildChain (key.drop w.1.length) leaf))

/-- `Trie::Remove`: record the old path; if the key is not fully matched, the
landing node is absent or valueless, return the original version; otherwise
demote the landing node (or drop it when childless) and rebuild the path. -/
def Trie.Remove (t : Trie) (key : List Char) : Trie :=
  let w := walkAux t key
  if w.1.length = key.length then
    match w.2 with
    | none => t
    | some n =>
      match n.value with
      | none => t
      | some _ =>
        rebuildPath w.1
          (if n.children.isEmpty then none else some (TrieNode.mk n.children none))
  else t

/-- The test `idx == key_size && cur && cur->is_value_node_` of `Trie::Remove`,
phrased through the landing node of the walk. -/
def landsOnValue (t : Trie) (key : List Char) : Bool :=
  match getNode t key with
  | none => false
  | some n => n.value.isSome

/-- Fuel-bounded version of the `Trie::Get` traversal loop: one unit of fuel is
spent per consumed key character; `none` means the fuel ran out. -/
def getNodeFuel : Nat → Trie → List Char → Option Trie
  | _, node, [] => some node
  | 0, _, _ :: _ => none
  | _ + 1, none, _ :: _ => some none
  | fuel + 1, some n, c :: rest =>
    match lookupChild n.children c with
    | none => some none
    | some child => getNodeFuel fuel child rest

/-! ### Association-list map lemmas -/

theorem lookupChild_nil (c : Char) : lookupChild [] c = none := rfl

theorem lookupChild_cons (pc : Char) (pv : Option TrieNode)
    (rest : List (Char × Option TrieNode)) (c : Char) :
    lookupChild ((pc, pv) :: rest) c
      = if pc = c then some pv else lookupChild rest c := rfl

theorem mapInsert_nil (c : Char) (child : Option TrieNode) :
    mapInsert c child [] = [(c, child)] := rfl

theorem mapInsert_cons (c pc : Char) (child pv : Option TrieNode)
    (rest : List (Char × Option TrieNode)) :
    mapInsert c child ((pc, pv) :: rest)
      = if pc = c then (c, child) :: rest else (pc, pv) :: mapInsert c child rest := rfl

theorem lookup_mapInsert_self (c : Char) (child : Option TrieNode)
    (l : List (Char × Option TrieNode)) :
    lookupChild (mapInsert c child l) c = some child := by
  induction l with
  | nil => simp [mapInsert_nil, lookupChild_cons]
  | cons p rest ih =>
    obtain ⟨pc, pv⟩ := p
    rw [mapInsert_cons]
    by_cases h : pc = c
    · rw [if_pos h, lookupChild_cons, if_pos rfl]
    · rw [if_neg h, lookupChild_cons, if_neg h, ih]

theorem lookup_mapInsert_ne (c c' : Char) (child : Option TrieNode)
    (l : List (Char × Option TrieNode)) (hne : c' ≠ c) :
    lookupChild (mapInsert c child l) c' = lookupChild l c' := by
  induction l with
  | nil =>
    rw [mapInsert_nil, lookupChild_cons, if_neg (fun h => hne h.symm), lookupChild_nil]
  | cons p rest ih =>
    obtain ⟨pc, pv⟩ := p
    rw [mapInsert_cons]
    by_cases h : pc = c
    · rw [if_pos h, lookupChild_cons, if_neg (fun hh => hne hh.symm),
        lookupChild_cons, if_neg (h ▸ fun hh => hne hh.symm)]
    · rw [if_neg h, lookupChild_cons, lookupChild_cons]
      by_cases h2 : pc = c'
      · rw [if_pos h2, if_pos h2]
      · rw [if_neg h2, if_neg h2, ih]

theorem mapInsert_ne_nil (c : Char) (child : Option TrieNode)
    (l : List (Char × Option TrieNode)) : mapInsert c child l ≠ [] := by
  cases l with
  | nil => simp [mapInsert_nil]
  | cons p rest =>
    obtain ⟨pc, pv⟩ := p
    rw [mapInsert_cons]
    by_cases h : pc = c
    · rw [if_pos h]; simp
    · rw [if_neg h]; simp

theorem mem_mapInsert (c : Char) (child : Option TrieNode)
    (l : List (Char × Option TrieNode)) (x : Char × Option TrieNode)
    (hx : x ∈ mapInsert c child l) : x = (c, child) ∨ x ∈ l := by
  induction l with
  | nil => rw [mapInsert_nil] at hx; simp at hx; exact Or.inl hx
  | cons p rest ih =>
    obtain ⟨pc, pv⟩ := p
    rw [mapInsert_cons] at hx
    by_cases h : pc = c
    · rw [if_pos h] at hx
      rcases List.mem_cons.mp hx with h1 | h1
      · exact Or.inl h1
      · exact Or.inr (List.mem_cons_of_mem _ h1)
    · rw [if_neg h] at hx
      rcases List.mem_cons.mp hx with h1 | h1
      · exact Or.inr (by simp [h1])
      · rcases ih h1 with h2 | h2
        · exact Or.inl h2
        · exact Or.inr (List.mem_cons_of_mem _ h2)

theorem lookupChild_mem (l : List (Char × Option TrieNode)) (c : Char)
    (p : Option TrieNode) (h : lookupChild l c = some p) : (c, p) ∈ l := by
  induction l with
  | nil => rw [lookupChild_nil] at h; exact absurd h (by simp)
  | cons q rest ih =>
    obtain ⟨qc, qv⟩ := q
    rw [lookupChild_cons] at h
    by_cases hq : qc = c
    · rw [if_pos hq] at h
      obtain rfl : qv = p := by injection h
      subst hq
      exact List.mem_cons_self _ _
    · rw [if_neg hq] at h
      exact List.mem_cons_of_mem _ (ih h)

/-! ### Lemmas about the Get traversal -/

theorem getNode_nil (t : Trie) : getNode t [] = t := by
  cases t <;> rfl

theorem getNode_none (key : List Char) : getNode none key = none := by
  cases key <;> rfl

theorem getNode_cons (n : TrieNode) (c : Char) (rest : List Char) :
    getNode (some n) (c :: rest) = getNode (childOf n c) rest := by
  show (match lookupChild n.children c with
        | none => none
        | some child => getNode child rest) = _
  unfold childOf
  cases h : lookupChild n.children c with
  | none => simp [getNode_none]
  | some child => rfl

theorem getNode_append (t : Trie) (p q : List Char) :
    getNode t (p ++ q) = getNode (getNode t p) q := by
  induction p generalizing t with
  | nil => rw [List.nil_append, getNode_nil]
  | cons c p' ih =>
    cases t with
    | none => rw [getNode_none, getNode_none, getNode_none]
    | some n => rw [List.cons_append, getNode_cons, getNode_cons, ih]

/-! ### Lemmas about the shared path-recording walk -/

theorem walkAux_nil (t : Trie) : walkAux t [] = ([], t) := by
  cases t <;> rfl

theorem walkAux_none (key : List Char) : walkAux none key = ([], none) := by
  cases key <;> rfl

theorem walkAux_cons (n : TrieNode) (c : Char) (rest : List Char) :
    walkAux (some n) (c :: rest)
      = ((n, c) :: (walkAux (childOf n c) rest).1, (walkAux (childOf n c) rest).2) := rfl

theorem walkAux_snd (t : Trie) (key : List Char) :
    (walkAux t key).2 = getNode t key := by
  induction key generalizing t with
  | nil => rw [walkAux_nil, getNode_nil]
  | cons c rest ih =>
    cases t with
    | none => rw [walkAux_none, getNode_none]
    | some n => rw [walkAux_cons, getNode_cons]; exact ih _

theorem walkAux_len_le (t : Trie) (key : List Char) :
    (walkAux t key).1.length ≤ key.length := by
  induction key generalizing t with
  | nil => rw [walkAux_nil]; simp
  | cons c rest ih =>
    cases t with
    | none => rw [walkAux_none]; simp
    | some n =>
      rw [walkAux_cons]
      simpa using Nat.succ_le_succ (ih (childOf n c))

theorem walkAux_len_of_getNode (t : Trie) (key : List Char) (m : TrieNode)
    (h : getNode t key = some m) : (walkAux t key).1.length = key.length := by
  induction key generalizing t with
  | nil => rw [walkAux_nil]; rfl
  | cons c rest ih =>
    cases t with
    | none => rw [getNode_none] at h; exact absurd h (by simp)
    | some n =>
      rw [getNode_cons] at h
      rw [walkAux_cons]
      simp only [List.length_cons]
      rw [ih _ h]

/-! ### Recursion equations for Put -/

theorem put_none (key : List Char) (v : TVal) :
    Trie.Put none key v = some (buildChain key (TrieNode.mk [] (some v))) := by
  simp only [Trie.Put, walkAux_none, List.length_nil, List.drop_zero, rebuildPath]

theorem put_nil (n : TrieNode) (v : TVal) :
    Trie.Put (some n) [] v = some (TrieNode.mk n.children (some v)) := by
  simp only [Trie.Put, walkAux_nil, List.drop_nil, rebuildPath, buildChain]

theorem put_cons (n : TrieNode) (c : Char) (rest : List Char) (v : TVal) :
    Trie.Put (some n) (c :: rest) v
      = some (setChild n c (Trie.Put (childOf n c) rest v)) := by
  simp only [Trie.Put, walkAux_cons, rebuildPath, List.length_cons, List.drop_succ_cons]

/-! ### Recursion equations for Remove -/

theorem landsOnValue_cons (n : TrieNode) (c : Char) (rest : List Char) :
    landsOnValue (some n) (c :: rest) = landsOnValue (childOf n c) rest := by
  simp only [landsOnValue, getNode_cons]

theorem landsOnValue_iff (t : Trie) (key : List Char) :
    landsOnValue t key = true
      ↔ ∃ m v, getNode t key = some m ∧ m.value = some v := by
  unfold landsOnValue
  cases h : getNode t key with
  | none => simp
  | some m =>
    cases hv : m.value with
    | none => simp [hv]
    | some v => simp [hv]

theorem remove_none (key : List Char) : Trie.Remove none key = none := by
  simp only [Trie.Remove, walkAux_none, List.length_nil]
  split <;> rfl

theorem remove_noop (t : Trie) (key : List Char)
    (h : landsOnValue t key = false) : Trie.Remove t key = t := by
  unfold landsOnValue at h
  rw [← walkAux_snd] at h
  simp only [Trie.Remove]
  split
  · split
    · rfl
    · next n heq =>
      rw [heq] at h
      simp only [Option.isSome] at h
      split
      · rfl
      · next v hv =>
        rw [hv] at h
        simp at h
  · rfl

theorem remove_nil_value (n : TrieNode) (v : TVal) (h : n.value = some v) :
    Trie.Remove (some n) []
      = if n.children.isEmpty then none else some (TrieNode.mk n.children none) := by
  simp only [Trie.Remove, walkAux_nil, List.length_nil, if_pos rfl, h, rebuildPath,
    if_true]

theorem remove_cons (n : TrieNode) (c : Char) (rest : List Char)
    (h : landsOnValue (childOf n c) rest = true) :
    Trie.Remove (some n) (c :: rest)
      = some (setChild n c (Trie.Remove (childOf n c) rest)) := by
  obtain ⟨m, v, hm, hv⟩ := (landsOnValue_iff _ _).mp h
  have hsnd : (walkAux (childOf n c) rest).2 = some m := by rw [walkAux_snd, hm]
  have hlen : (walkAux (childOf n c) rest).1.length = rest.length :=
    walkAux_len_of_getNode _ _ _ hm
  simp only [Trie.Remove, walkAux_cons, List.length_cons, hsnd, hv, hlen, if_pos rfl,
    rebuildPath, if_true]

/-! ### Small computation helpers -/

theorem children_mk (cs : List (Char × Option TrieNode)) (vv : Option TVal) :
    (TrieNode.mk cs vv).children = cs := rfl

theorem value_mk (cs : List (Char × Option TrieNode)) (vv : Option TVal) :
    (TrieNode.mk cs vv).value = vv := rfl

theorem setChild_children (n : TrieNode) (c : Char) (x : Option TrieNode) :
    (setChild n c x).children = mapInsert c x n.children := rfl

theorem setChild_value (n : TrieNode) (c : Char) (x : Option TrieNode) :
    (setChild n c x).value = n.value := rfl

theorem buildChain_nil (leaf : TrieNode) : buildChain [] leaf = leaf := rfl

theorem buildChain_cons (c : Char) (rest : List Char) (leaf : TrieNode) :
    buildChain (c :: rest) leaf
      = TrieNode.mk [(c, some (buildChain rest leaf))] none := rfl

theorem childOf_eq (n : TrieNode) (c : Char) :
    childOf n c = match lookupChild n.children c with
      | none => none
      | some child => child := rfl

theorem childOf_setChild_self (n : TrieNode) (c : Char) (x : Option TrieNode) :
    childOf (setChild n c x) c = x := by
  rw [childOf_eq, setChild_children, lookup_mapInsert_self]

theorem childOf_setChild_ne (n : TrieNode) (c c' : Char) (x : Option TrieNode)
    (h : c' ≠ c) : childOf (setChild n c x) c' = childOf n c' := by
  rw [childOf_eq, childOf_eq, setChild_children, lookup_mapInsert_ne _ _ _ _ h]

theorem childOf_congr (n m : TrieNode) (c : Char) (h : n.children = m.children) :
    childOf n c = childOf m c := by
  rw [childOf_eq, childOf_eq, h]

theorem childOf_single_self (c : Char) (x : Option TrieNode) (vv : Option TVal) :
    childOf (TrieNode.mk [(c, x)] vv) c = x := by
  rw [childOf_eq, children_mk, lookupChild_cons, if_pos rfl]

theorem childOf_single_ne (c c' : Char) (x : Option TrieNode) (vv : Option TVal)
    (h : c' ≠ c) : childOf (TrieNode.mk [(c, x)] vv) c' = none := by
  rw [childOf_eq, children_mk, lookupChild_cons, if_neg (fun hh => h hh.symm),
    lookupChild_nil]

theorem childOf_of_empty (n : TrieNode) (c : Char) (h : n.children = []) :
    childOf n c = none := by
  rw [childOf_eq, h, lookupChild_nil]

theorem get_none (key : List Char) (ty : Nat) : Trie.Get none key ty = none := by
  unfold Trie.Get
  rw [getNode_none]

theorem get_cons (n : TrieNode) (c : Char) (rest : List Char) (ty : Nat) :
    Trie.Get (some n) (c :: rest) ty = Trie.Get (childOf n c) rest ty := by
  unfold Trie.Get
  rw [getNode_cons]

theorem get_nil_some (n : TrieNode) (ty : Nat) :
    Trie.Get (some n) [] ty
      = match n.value with
        | none => none
        | some v => if v.ty = ty then some v.val else none := by
  unfold Trie.Get
  rw [getNode_nil]

theorem isEmpty_nil_true : (([] : List (Char × Option TrieNode)).isEmpty = true) := rfl

/-! ### The landing node of a Put holds the freshly stored value -/

theorem getNode_put (t : Trie) (key : List Char) (v : TVal) :
    ∃ m, getNode (Trie.Put t key v) key = some m ∧ m.value = some v := by
  induction key generalizing t with
  | nil =>
    cases t with
    | none =>
      exact ⟨TrieNode.mk [] (some v), by rw [put_none, buildChain_nil, getNode_nil], rfl⟩
    | some n =>
      exact ⟨TrieNode.mk n.children (some v), by rw [put_nil, getNode_nil], rfl⟩
  | cons c rest ih =>
    cases t with
    | none =>
      obtain ⟨m, hm, hv⟩ := ih none
      refine ⟨m, ?_, hv⟩
      rw [put_none, buildChain_cons, getNode_cons, childOf_single_self, ← put_none, hm]
    | some n =>
      obtain ⟨m, hm, hv⟩ := ih (childOf n c)
      refine ⟨m, ?_, hv⟩
      rw [put_cons, getNode_cons, childOf_setChild_self, hm]

/-! ### Frame property of Put -/

theorem get_put_frame (key : List Char) :
    ∀ (key' : List Char) (t : Trie) (v : TVal) (ty : Nat), key' ≠ key →
      Trie.Get (Trie.Put t key v) key' ty = Trie.Get t key' ty := by
  induction key with
  | nil =>
    intro key' t v ty h
    cases key' with
    | nil => exact absurd rfl h
    | cons c' k'' =>
      cases t with
      | none =>
        rw [put_none, buildChain_nil, get_cons,
          childOf_of_empty _ _ (children_mk _ _), get_none, get_none]
      | some n =>
        rw [put_nil, get_cons, get_cons,
          childOf_congr (TrieNode.mk n.children (some v)) n c' (children_mk _ _)]
  | cons c kr ih =>
    intro key' t v ty h
    cases t with
    | some n =>
      rw [put_cons]
      cases key' with
      | nil =>
        rw [get_nil_some, get_nil_some, setChild_value]
      | cons c' k'' =>
        by_cases hc : c' = c
        · subst hc
          have hk : k'' ≠ kr := fun hh => h (by rw [hh])
          rw [get_cons, get_cons, childOf_setChild_self, ih _ _ _ _ hk]
        · rw [get_cons, get_cons, childOf_setChild_ne _ _ _ _ hc]
    | none =>
      rw [put_none, buildChain_cons]
      cases key' with
      | nil =>
        rw [get_nil_some, value_mk, get_none]
      | cons c' k'' =>
        rw [get_cons]
        by_cases hc : c' = c
        · subst hc
          have hk : k'' ≠ kr := fun hh => h (by rw [hh])
          rw [childOf_single_self, ← put_none, ih _ _ _ _ hk, get_none, get_none]
        · rw [childOf_single_ne _ _ _ _ hc, get_none, get_none]

/-! ### Remove after Put: the stored key is gone, everything else untouched -/

theorem lands_put (t : Trie) (key : List Char) (v : TVal) :
    landsOnValue (Trie.Put t key v) key = true := by
  obtain ⟨m, hm, hv⟩ := getNode_put t key v
  exact (landsOnValue_iff _ _).mpr ⟨m, v, hm, hv⟩

theorem get_remove_put_absent (key : List Char) :
    ∀ (t : Trie) (v : TVal) (ty : Nat),
      Trie.Get (Trie.Remove (Trie.Put t key v) key) key ty = none := by
  induction key with
  | nil =>
    intro t v ty
    cases t with
    | none =>
      rw [put_none, buildChain_nil, remove_nil_value _ v (value_mk _ _),
        children_mk]
      rw [if_pos isEmpty_nil_true, get_none]
    | some n =>
      rw [put_nil, remove_nil_value _ v (value_mk _ _), children_mk]
      by_cases hE : n.children.isEmpty
      · rw [if_pos hE, get_none]
      · rw [if_neg hE, get_nil_some, value_mk]
  | cons c kr ih =>
    intro t v ty
    cases t with
    | some n =>
      have hl : landsOnValue (childOf (setChild n c (Trie.Put (childOf n c) kr v)) c)
          kr = true := by
        rw [childOf_setChild_self]
        exact lands_put (childOf n c) kr v
      rw [put_cons, remove_cons _ _ _ hl, get_cons, childOf_setChild_self,
        childOf_setChild_self]
      exact ih (childOf n c) v ty
    | none =>
      have hco : childOf (TrieNode.mk
            [(c, some (buildChain kr (TrieNode.mk [] (some v))))] none) c
          = Trie.Put none kr v := by
        rw [childOf_single_self, put_none]
      have hl : landsOnValue (childOf (TrieNode.mk
            [(c, some (buildChain kr (TrieNode.mk [] (some v))))] none) c) kr = true := by
        rw [hco]
        exact lands_put none kr v
      rw [put_none, buildChain_cons, remove_cons _ _ _ hl, get_cons,
        childOf_setChild_self, hco]
      exact ih none v ty

theorem get_remove_put_frame (key : List Char) :
    ∀ (key' : List Char) (t : Trie) (v : TVal) (ty : Nat), key' ≠ key →
      Trie.Get (Trie.Remove (Trie.Put t key v) key) key' ty
        = Trie.Get t key' ty := by
  induction key with
  | nil =>
    intro key' t v ty h
    cases key' with
    | nil => exact absurd rfl h
    | cons c' k'' =>
      cases t with
      | none =>
        rw [put_none, buildChain_nil, remove_nil_value _ v (value_mk _ _),
          children_mk, if_pos isEmpty_nil_true, get_none]
      | some n =>
        rw [put_nil, remove_nil_value _ v (value_mk _ _), children_mk]
        by_cases hE : n.children.isEmpty
        · rw [if_pos hE, get_none, get_cons,
            childOf_of_empty _ _ (List.isEmpty_iff.mp hE), get_none]
        · rw [if_neg hE, get_cons, get_cons,
            childOf_congr (TrieNode.mk n.children none) n c' (children_mk _ _)]
  | cons c kr ih =>
    intro key' t v ty h
    cases t with
    | some n =>
      have hl : landsOnValue (childOf (setChild n c (Trie.Put (childOf n c) kr v)) c)
          kr = true := by
        rw [childOf_setChild_self]
        exact lands_put (childOf n c) kr v
      rw [put_cons, remove_cons _ _ _ hl, childOf_setChild_self]
      cases key' with
      | nil =>
        rw [get_nil_some, get_nil_some, setChild_value, setChild_value]
      | cons c' k'' =>
        by_cases hc : c' = c
        · subst hc
          have hk : k'' ≠ kr := fun hh => h (by rw [hh])
          rw [get_cons, get_cons, childOf_setChild_self, ih _ _ _ _ hk]
        · rw [get_cons, get_cons, childOf_setChild_ne _ _ _ _ hc,
            childOf_setChild_ne _ _ _ _ hc]
    | none =>
      have hco : childOf (TrieNode.mk
            [(c, some (buildChain kr (TrieNode.mk [] (some v))))] none) c
          = Trie.Put none kr v := by
        rw [childOf_single_self, put_none]
      have hl : landsOnValue (childOf (TrieNode.mk
            [(c, some (buildChain kr (TrieNode.mk [] (some v))))] none) c) kr = true := by
        rw [hco]
        exact lands_put none kr v
      rw [put_none, buildChain_cons, remove_cons _ _ _ hl, hco]
      cases key' with
      | nil =>
        rw [get_nil_some, setChild_value, value_mk, get_none]
      | cons c' k'' =>
        by_cases hc : c' = c
        · subst hc
          have hk : k'' ≠ kr := fun hh => h (by rw [hh])
          rw [get_cons, childOf_setChild_self, ih _ _ _ _ hk, get_none, get_none]
        · rw [get_cons, childOf_setChild_ne _ _ _ _ hc,
            childOf_single_ne _ _ _ _ hc, get_none, get_none]

/-! ### Structural invariant: no childless, valueless node -/

/-- Well-formedness of a subtree: no node in it is both childless and
valueless, where childless means an empty children mapping — the test
`children_.empty()` the code itself uses. -/
inductive NodeWF : TrieNode → Prop where
  | mk (children : List (Char × Option TrieNode)) (value : Option TVal) :
      (children = [] → value ≠ none) →
      (∀ c m, (c, some m) ∈ children → NodeWF m) →
      NodeWF (TrieNode.mk children value)

theorem nodeWF_not_dead (n : TrieNode) (h : NodeWF n) :
    n.children = [] → n.value ≠ none := by
  cases h with
  | mk children value h1 h2 => exact h1

theorem nodeWF_child (n : TrieNode) (h : NodeWF n) (c : Char) (m : TrieNode)
    (hm : (c, some m) ∈ n.children) : NodeWF m := by
  cases h with
  | mk children value h1 h2 => exact h2 c m hm

/-- Every node of the version (there is at most one root) is well-formed. -/
def TrieWF (t : Trie) : Prop := ∀ n, t = some n → NodeWF n

theorem trieWF_none : TrieWF none := fun _ h => absurd h (by simp)

theorem trieWF_some (n : TrieNode) (h : NodeWF n) : TrieWF (some n) := by
  intro m hm
  injection hm with hh
  rw [← hh]
  exact h

theorem trieWF_childOf (n : TrieNode) (c : Char) (h : NodeWF n) :
    TrieWF (childOf n c) := by
  intro m hm
  cases hl : lookupChild n.children c with
  | none =>
    rw [childOf_eq, hl] at hm
    exact absurd hm (by simp)
  | some child =>
    have hm' : child = some m := by rw [childOf_eq, hl] at hm; exact hm
    exact nodeWF_child n h c m (hm' ▸ lookupChild_mem _ _ _ hl)

theorem nodeWF_setChild (n : TrieNode) (c : Char) (x : Trie)
    (hn : NodeWF n) (hx : TrieWF x) : NodeWF (setChild n c x) := by
  show NodeWF (TrieNode.mk (mapInsert c x n.children) n.value)
  refine NodeWF.mk _ _ ?_ ?_
  · intro hemp
    exact absurd hemp (mapInsert_ne_nil _ _ _)
  · intro c2 m hm
    rcases mem_mapInsert _ _ _ _ hm with h1 | h1
    · rw [Prod.mk.injEq] at h1
      exact hx m h1.2.symm
    · exact nodeWF_child n hn c2 m h1

theorem put_trieWF (key : List Char) :
    ∀ (t : Trie) (v : TVal), TrieWF t → TrieWF (Trie.Put t key v) := by
  induction key with
  | nil =>
    intro t v ht
    cases t with
    | none =>
      rw [put_none, buildChain_nil]
      exact trieWF_some _ (NodeWF.mk [] (some v) (fun _ => by simp)
        (fun c m hm => absurd hm (by simp)))
    | some n =>
      rw [put_nil]
      exact trieWF_some _ (NodeWF.mk n.children (some v) (fun _ => by simp)
        (fun c m hm => nodeWF_child n (ht n rfl) c m hm))
  | cons c kr ih =>
    intro t v ht
    cases t with
    | none =>
      rw [put_none, buildChain_cons]
      apply trieWF_some
      refine NodeWF.mk _ none (fun hemp => absurd hemp (by simp)) ?_
      intro c2 m hm
      rw [List.mem_singleton, Prod.mk.injEq] at hm
      have := ih none v trieWF_none
      rw [put_none] at this
      exact this m hm.2.symm
    | some n =>
      rw [put_cons]
      exact trieWF_some _ (nodeWF_setChild n c _ (ht n rfl)
        (ih (childOf n c) v (trieWF_childOf n c (ht n rfl))))

theorem landsOnValue_nil (n : TrieNode) :
    landsOnValue (some n) [] = n.value.isSome := by
  unfold landsOnValue
  rw [getNode_nil]

theorem remove_trieWF (key : List Char) :
    ∀ (t : Trie), TrieWF t → TrieWF (Trie.Remove t key) := by
  induction key with
  | nil =>
    intro t ht
    cases t with
    | none =>
      rw [remove_none]
      exact trieWF_none
    | some n =>
      cases hv : n.value with
      | none =>
        rw [remove_noop _ _ (by rw [landsOnValue_nil, hv]; rfl)]
        exact ht
      | some v =>
        rw [remove_nil_value n v hv]
        by_cases hE : n.children.isEmpty
        · rw [if_pos hE]
          exact trieWF_none
        · rw [if_neg hE]
          apply trieWF_some
          refine NodeWF.mk n.children none ?_ ?_
          · intro hemp
            exact absurd (by rw [hemp]; rfl) hE
          · exact fun c m hm => nodeWF_child n (ht n rfl) c m hm
  | cons c kr ih =>
    intro t ht
    cases t with
    | none =>
      rw [remove_none]
      exact trieWF_none
    | some n =>
      by_cases hl : landsOnValue (childOf n c) kr = true
      · rw [remove_cons n c kr hl]
        exact trieWF_some _ (nodeWF_setChild n c _ (ht n rfl)
          (ih (childOf n c) (trieWF_childOf n c (ht n rfl))))
      · rw [remove_noop _ _ (by rw [landsOnValue_cons]; exact Bool.not_eq_true _ ▸ hl)]
        exact ht

/-- Versions reachable from the empty trie by any sequence of Put and Remove. -/
inductive Reachable : Trie → Prop where
  | empty : Reachable none
  | put (t : Trie) (key : List Char) (v : TVal) :
      Reachable t → Reachable (Trie.Put t key v)
  | remove (t : Trie) (key : List Char) :
      Reachable t → Reachable (Trie.Remove t key)

theorem reachable_trieWF (t : Trie) (h : Reachable t) : TrieWF t := by
  induction h with
  | empty => exact trieWF_none
  | put t key v _ ih => exact put_trieWF key t v ih
  | remove t key _ ih => exact remove_trieWF key t ih

/-- `Occurs n r`: node `n` appears in the tree rooted at `r`, following the
non-null child references. -/
inductive Occurs : TrieNode → TrieNode → Prop where
  | refl (n : TrieNode) : Occurs n n
  | step (n m : TrieNode) (c : Char) (children : List (Char × Option TrieNode))
      (value : Option TVal) :
      (c, some m) ∈ children → Occurs n m → Occurs n (TrieNode.mk children value)

theorem occurs_wf (n r : TrieNode) (ho : Occurs n r) : NodeWF r → NodeWF n := by
  induction ho with
  | refl => exact id
  | step m c children value hmem _ ih =>
    intro hr
    exact ih (nodeWF_child _ hr c m hmem)

/-! ### Termination bound for the Get traversal -/

theorem getNodeFuel_complete (key : List Char) :
    ∀ (fuel : Nat) (t : Trie), key.length ≤ fuel →
      getNodeFuel fuel t key = some (getNode t key) := by
  induction key with
  | nil =>
    intro fuel t _
    cases t <;> cases fuel <;> rfl
  | cons c kr ih =>
    intro fuel t h
    cases fuel with
    | zero => simp at h
    | succ f =>
      cases t with
      | none => rw [getNode_none]; rfl
      | some n =>
        rw [getNode_cons]
        cases hl : lookupChild n.children c with
        | none =>
          have hchild : childOf n c = none := by rw [childOf_eq, hl]
          show (match lookupChild n.children c with
            | none => some none
            | some child => getNodeFuel f child kr) = _
          rw [hl, hchild, getNode_none]
        | some child =>
          have hchild : childOf n c = child := by rw [childOf_eq, hl]
          show (match lookupChild n.children c with
            | none => some none
            | some child => getNodeFuel f child kr) = _
          rw [hl, hchild]
          exact ih f child (Nat.le_of_succ_le_succ h)

/-! ### Null child entries are harmless for Get -/

theorem get_through_null_entry (t : Trie) (pre : List Char) (n : TrieNode)
    (c : Char) (rest : List Char) (ty : Nat) (hpre : getNode t pre = some n)
    (hentry : lookupChild n.children c = some none) :
    Trie.Get t (pre ++ c :: rest) ty = none := by
  have hchild : childOf n c = none := by rw [childOf_eq, hentry]
  unfold Trie.Get
  rw [getNode_append, hpre, getNode_cons, hchild, getNode_none]

/-! ### Claim theorems -/

theorem get_eq_of_landing (t : Trie) (key : List Char) (m : TrieNode) (ty : Nat)
    (h : getNode t key = some m) :
    Trie.Get t key ty
      = match m.value with
        | none => none
        | some v => if v.ty = ty then some v.val else none := by
  unfold Trie.Get
  rw [h]

/-- C1: for every trie version `t`, every key (including the empty key) and
every stored value `v`, `Get` with the value's own type tag after
`Put t key v` returns exactly the value just stored. -/
theorem c1_get_after_put (t : Trie) (key : List Char) (v : TVal) :
    Trie.Get (Trie.Put t key v) key v.ty = some v.val := by
  obtain ⟨m, hm, hv⟩ := getNode_put t key v
  rw [get_eq_of_landing _ _ m _ hm, hv]
  show (if v.ty = v.ty then some v.val else none) = some v.val
  rw [if_pos rfl]

/-- C2: Put is non-destructive — the source version is a value that the pure
`Trie.Put` never modifies, and for every key other than the stored one the new
version reads exactly as the old one, for every requested type tag. -/
theorem c2_put_frame (t : Trie) (key key' : List Char) (v : TVal) (ty : Nat)
    (h : key' ≠ key) :
    Trie.Get (Trie.Put t key v) key' ty = Trie.Get t key' ty :=
  get_put_frame key key' t v ty h

theorem c2_put_frame_witness :
    (['b'] : List Char) ≠ ['a']
      ∧ Trie.Get (Trie.Put none ['a'] ⟨0, 1⟩) ['b'] 0 = Trie.Get none ['b'] 0 :=
  ⟨by decide, c2_put_frame none ['a'] ['b'] ⟨0, 1⟩ 0 (by decide)⟩

/-- C3: `Remove (Put t k v) k` reads the same as `t` on every key other than
`k` (for every requested type tag), and reading `k` afterwards is absent. -/
theorem c3_remove_put (t : Trie) (key key' : List Char) (v : TVal) (ty ty2 : Nat)
    (h : key' ≠ key) :
    Trie.Get (Trie.Remove (Trie.Put t key v) key) key' ty = Trie.Get t key' ty
      ∧ Trie.Get (Trie.Remove (Trie.Put t key v) key) key ty2 = none :=
  ⟨get_remove_put_frame key key' t v ty h, get_remove_put_absent key t v ty2⟩

theorem c3_remove_put_witness :
    (['b'] : List Char) ≠ ['a']
      ∧ (Trie.Get (Trie.Remove (Trie.Put none ['a'] ⟨0, 1⟩) ['a']) ['b'] 0
            = Trie.Get none ['b'] 0
          ∧ Trie.Get (Trie.Remove (Trie.Put none ['a'] ⟨0, 1⟩) ['a']) ['a'] 0
            = none) :=
  ⟨by decide, c3_remove_put none ['a'] ['b'] ⟨0, 1⟩ 0 0 (by decide)⟩

/-- C4: the claim says a cloned ancestor's mapping entry for the key character
is removed entirely when the replacement from below is absent. Evaluating the
code at `Remove (Put ∅ "ab" v) "ab"` refutes this: the walk lands on a
childless value node, the terminal replacement is absent, yet the cloned node
at 'a' keeps its entry for 'b' in its mapping, bound to a null child
(`children_[key[i]] = child_node` assigns a null pointer instead of erasing). -/
theorem c4_null_entry_left_behind :
    Trie.Remove (Trie.Put none ['a', 'b'] ⟨0, 1⟩) ['a', 'b']
        = some (TrieNode.mk [('a', some (TrieNode.mk [('b', none)] none))] none)
      ∧ lookupChild (TrieNode.mk [('b', (none : Option TrieNode))] none).children 'b'
        = some none :=
  ⟨rfl, rfl⟩

/-- C5: when the walk for the key does not end on a value node (the key is not
fully matched, the landing node is absent, or it holds no value — exactly the
test `landsOnValue`), Remove returns the original version itself
(`return *this`), rendered as equality of the returned version with input. -/
theorem c5_remove_absent_noop (t : Trie) (key : List Char)
    (h : landsOnValue t key = false) : Trie.Remove t key = t :=
  remove_noop t key h

theorem c5_remove_absent_noop_witness :
    landsOnValue (Trie.Put none ['a'] ⟨0, 1⟩) ['a', 'b'] = false
      ∧ Trie.Remove (Trie.Put none ['a'] ⟨0, 1⟩) ['a', 'b']
          = Trie.Put none ['a'] ⟨0, 1⟩ :=
  ⟨rfl, c5_remove_absent_noop _ _ rfl⟩

/-- C6: reading a key just stored with one type under any different requested
type tag yields absent, never the mistyped value (`dynamic_cast` failure). -/
theorem c6_get_wrong_type (t : Trie) (key : List Char) (v : TVal) (ty : Nat)
    (h : ty ≠ v.ty) : Trie.Get (Trie.Put t key v) key ty = none := by
  obtain ⟨m, hm, hv⟩ := getNode_put t key v
  rw [get_eq_of_landing _ _ m _ hm, hv]
  show (if v.ty = ty then some v.val else none) = none
  rw [if_neg (fun hh => h hh.symm)]

theorem c6_get_wrong_type_witness :
    (1 : Nat) ≠ (⟨0, 5⟩ : TVal).ty
      ∧ Trie.Get (Trie.Put none ['a'] ⟨0, 5⟩) ['a'] 1 = none :=
  ⟨by decide, c6_get_wrong_type none ['a'] ⟨0, 5⟩ 1 (by decide)⟩

/-- C7: in every version reachable from the empty trie by any sequence of Put
and Remove, no node in the tree (the root included, so in particular every
non-root node) is both childless and valueless, childless meaning an empty
children mapping — the `children_.empty()` test used by the code. -/
theorem c7_reachable_no_dead_node (t : Trie) (r n : TrieNode)
    (ht : Reachable t) (hr : t = some r) (ho : Occurs n r) :
    n.children ≠ [] ∨ n.value ≠ none := by
  have hwf : NodeWF n := occurs_wf n r ho (reachable_trieWF t ht r hr)
  by_cases hc : n.children = []
  · exact Or.inr (nodeWF_not_dead n hwf hc)
  · exact Or.inl hc

theorem c7_reachable_no_dead_node_witness :
    (TrieNode.mk [('a', some (TrieNode.mk [] (some ⟨0, 1⟩)))] none).children ≠ []
      ∨ (TrieNode.mk [('a', some (TrieNode.mk [] (some ⟨0, 1⟩)))] none).value
          ≠ none :=
  c7_reachable_no_dead_node (Trie.Put none ['a'] ⟨0, 1⟩) _ _
    (Reachable.put none ['a'] ⟨0, 1⟩ Reachable.empty) rfl (Occurs.refl _)

/-- C8: re-inserting a key with a value of a different type replaces both the
type and the stored value: the second Put wins, and a read at the first Put's
type is absent. -/
theorem c8_put_replaces_type (t : Trie) (key : List Char) (v1 v2 : TVal)
    (h : v1.ty ≠ v2.ty) :
    Trie.Get (Trie.Put (Trie.Put t key v1) key v2) key v2.ty = some v2.val
      ∧ Trie.Get (Trie.Put (Trie.Put t key v1) key v2) key v1.ty = none := by
  obtain ⟨m, hm, hv⟩ := getNode_put (Trie.Put t key v1) key v2
  constructor
  · rw [get_eq_of_landing _ _ m _ hm, hv]
    show (if v2.ty = v2.ty then some v2.val else none) = some v2.val
    rw [if_pos rfl]
  · rw [get_eq_of_landing _ _ m _ hm, hv]
    show (if v2.ty = v1.ty then some v2.val else none) = none
    rw [if_neg (fun hh => h hh.symm)]

theorem c8_put_replaces_type_witness :
    (⟨0, 1⟩ : TVal).ty ≠ (⟨1, 2⟩ : TVal).ty
      ∧ (Trie.Get (Trie.Put (Trie.Put none ['a'] ⟨0, 1⟩) ['a'] ⟨1, 2⟩) ['a']
            (⟨1, 2⟩ : TVal).ty = some (⟨1, 2⟩ : TVal).val
          ∧ Trie.Get (Trie.Put (Trie.Put none ['a'] ⟨0, 1⟩) ['a'] ⟨1, 2⟩) ['a']
            (⟨0, 1⟩ : TVal).ty = none) :=
  ⟨by decide, c8_put_replaces_type none ['a'] ⟨0, 1⟩ ⟨1, 2⟩ (by decide)⟩

/-- C9: every loop of the three operations is bounded by the key length: the
shared path-recording walk pushes at most one node per key character, the
chain and path-copy loops process the key remainder and the recorded stack,
and the Get traversal completes when given the key length as fuel. All
operations are total Lean functions, so each call runs to completion. -/
theorem c9_loops_bounded (t : Trie) (key : List Char) :
    (walkAux t key).1.length ≤ key.length
      ∧ (key.drop (walkAux t key).1.length).length ≤ key.length
      ∧ getNodeFuel key.length t key = some (getNode t key) :=
  ⟨walkAux_len_le t key,
    by rw [List.length_drop]; omega,
    getNodeFuel_complete key key.length t (Nat.le_refl _)⟩

/-- C10: if some node of a trie has a children entry bound to an absent
(null) child — as Remove produces — then Get on any key routed through that
entry returns absent; being a total function, Get cannot fault there. -/
theorem c10_get_null_entry_absent (t : Trie) (pre : List Char) (n : TrieNode)
    (c : Char) (rest : List Char) (ty : Nat)
    (hpre : getNode t pre = some n)
    (hentry : lookupChild n.children c = some none) :
    Trie.Get t (pre ++ c :: rest) ty = none :=
  get_through_null_entry t pre n c rest ty hpre hentry

theorem c10_get_null_entry_absent_witness :
    getNode (Trie.Remove (Trie.Put none ['a', 'b'] ⟨0, 1⟩) ['a', 'b']) ['a']
        = some (TrieNode.mk [('b', none)] none)
      ∧ lookupChild (TrieNode.mk [('b', (none : Option TrieNode))] none).children 'b'
          = some none
      ∧ Trie.Get (Trie.Remove (Trie.Put none ['a', 'b'] ⟨0, 1⟩) ['a', 'b'])
          (['a'] ++ 'b' :: []) 0 = none :=
  ⟨rfl, rfl, c10_get_null_entry_absent _ ['a'] _ 'b' [] 0 rfl rfl⟩
